import Mathlib

/-!
Shallow embedding of `src/graphix/simulator.py` (class `PatternSimulator`):
the statevector container, the measurement-operator builder `meas_op`, and
the command interpreter `run`, together with the semantics of the external
linear-algebra primitives the simulator consumes (tensor-product
composition, restricted-axis operator application, trace/normalization,
single-axis partial trace, pure-state extraction).

An `n`-qubit state is a family of complex amplitudes indexed by the bit
carried on each of the `n` tensor axes; axis `i` of the internal state is
the qubit at position `i` of `node_index`.
-/

namespace GraphixSim

/-- Amplitudes of an `n`-qubit statevector, indexed by the bit value of each
tensor axis. -/
abbrev QVec (n : ℕ) : Type := (Fin n → Bool) → ℂ

/-- Density matrix on `n` qubits, indexed by pairs of basis bit-vectors. -/
abbrev DMat (n : ℕ) : Type := (Fin n → Bool) → (Fin n → Bool) → ℂ

/-- Squared norm of a statevector: the quantity `Statevector.trace()` that
`normalize_state` divides by (before the square root). -/
noncomputable def svTrace {n : ℕ} (v : QVec n) : ℝ :=
  ∑ b, Complex.normSq (v b)

/-- Embedding of `normalize_state`: divide the statevector by the square
root of its trace (squared norm). -/
noncomputable def normalizeVec {n : ℕ} (v : QVec n) : QVec n :=
  fun b => v b / ((Real.sqrt (svTrace v) : ℝ) : ℂ)

/-- Application of a single-qubit operator restricted to tensor axis `loc`,
leaving every other axis unchanged (`Statevector.evolve(op, [loc])`). -/
noncomputable def applyOne {n : ℕ} (M : Matrix Bool Bool ℂ) (loc : Fin n)
    (v : QVec n) : QVec n :=
  fun b => ∑ t, M (b loc) t * v (Function.update b loc t)

/-- Application of a two-qubit operator restricted to tensor axes
`q0, q1` (`Statevector.evolve(op, [q0, q1])`). -/
noncomputable def applyTwo {n : ℕ} (M : Matrix (Bool × Bool) (Bool × Bool) ℂ)
    (q0 q1 : Fin n) (v : QVec n) : QVec n :=
  fun b => ∑ u : Bool × Bool,
    M (b q0, b q1) u * v (Function.update (Function.update b q0 u.1) q1 u.2)

/-- Tensor-product composition `v.expand(w)`: the axes of the current state
`v` keep positions `0..n-1` and the fresh axes of `w` take positions
`n..n+m-1`. -/
noncomputable def tensorProd {n m : ℕ} (v : QVec n) (w : QVec m) :
    QVec (n + m) :=
  fun b => v (fun i => b (Fin.castAdd m i)) * w (fun j => b (Fin.natAdd n j))

/-- Partial trace of the pure state `v` discarding exactly axis `loc` and
retaining all other axes (`qi.partial_trace(sv, [loc])`). -/
noncomputable def reducedDM {m : ℕ} (loc : Fin (m + 1)) (v : QVec (m + 1)) :
    DMat m :=
  fun b bp => ∑ t,
    v (Fin.insertNth loc t b) * (starRingEnd ℂ) (v (Fin.insertNth loc t bp))

/-- Outer product `|v⟩⟨v|` of a statevector with itself. -/
noncomputable def outer {n : ℕ} (v : QVec n) : DMat n :=
  fun b bp => v b * (starRingEnd ℂ) (v bp)

/-- Embedding of `DensityMatrix.to_statevector()`: succeeds exactly when the
density matrix is a pure state of unit trace, returning a statevector
realizing it; fails (raises) otherwise. -/
noncomputable def toStatevector {n : ℕ} (ρ : DMat n) : Option (QVec n) :=
  @dite _ (∃ w : QVec n, svTrace w = 1 ∧ outer w = ρ)
    (Classical.propDecidable _) (fun h => some h.choose) (fun _ => none)

/-- Modelled from the spec: the Pauli-X matrix (`CLIFFORD[1]`, also `Ops.x`),
a fixed constant of the external operator library (`graphix.ops` /
`graphix.clifford` are not among the provided sources). -/
def pauliX : Matrix Bool Bool ℂ :=
  Matrix.of fun i j => if i = j then 0 else 1

/-- Modelled from the spec: the Pauli-Y matrix (`CLIFFORD[2]`). -/
def pauliY : Matrix Bool Bool ℂ :=
  Matrix.of fun i j =>
    match i, j with
    | false, true => -Complex.I
    | true, false => Complex.I
    | _, _ => 0

/-- Modelled from the spec: the Pauli-Z matrix (`CLIFFORD[3]`, also `Ops.z`). -/
def pauliZ : Matrix Bool Bool ℂ :=
  Matrix.of fun i j =>
    match i, j with
    | false, false => 1
    | true, true => -1
    | _, _ => 0

/-- The three Pauli operators `CLIFFORD[i + 1]` for `i = 0, 1, 2`. -/
noncomputable def pauli : Fin 3 → Matrix Bool Bool ℂ := ![pauliX, pauliY, pauliZ]

/-- Modelled from the spec: the fixed two-qubit controlling-phase operator
`Ops.cz` of the external operator library. -/
def opsCZ : Matrix (Bool × Bool) (Bool × Bool) ℂ :=
  Matrix.of fun u w => if u = w then (if u.1 && u.2 then -1 else 1) else 0

/-- Measurement planes accepted by `meas_op`. -/
inductive Plane where
  | XY : Plane
  | YZ : Plane
  | ZX : Plane
deriving DecidableEq

/-- The plane-dependent vector in ℝ³ computed by `meas_op` from the angle:
the `ZX` branch reuses `sin` in both nonzero slots, exactly as the source
does. -/
noncomputable def measVec (plane : Plane) (angle : ℝ) : Fin 3 → ℝ :=
  match plane with
  | Plane.XY => ![Real.cos angle, Real.sin angle, 0]
  | Plane.YZ => ![0, Real.cos angle, Real.sin angle]
  | Plane.ZX => ![Real.sin angle, 0, Real.sin angle]

/-- The 24-entry `CLIFFORD_MEASURE` table: for a local-Clifford index and a
Pauli axis, the rotated axis index and the sign bit. It is a fixed external
constant resource (`graphix.clifford`, not among the provided sources), so
the development is parameterized by it. -/
abbrev CTable : Type := Fin 24 → Fin 3 → Fin 3 × Bool

/-- Embedding of the static method `meas_op`: starting from `I/2`, for each
Pauli axis `i` add `(-1)^(choice + parity_i) * vec[perm_i] * CLIFFORD[i+1] / 2`
where `(perm_i, parity_i)` is the Clifford-table entry. -/
noncomputable def measOp (tbl : CTable) (angle : ℝ) (vop : Fin 24)
    (plane : Plane) (choice : Bool) : Matrix Bool Bool ℂ :=
  (1 / 2 : ℂ) • (1 : Matrix Bool Bool ℂ) +
    ∑ i : Fin 3,
      ((-1 : ℂ) ^ (cond choice 1 0 + cond (tbl vop i).2 1 0) *
          ((measVec plane angle (tbl vop i).1 : ℝ) : ℂ) / 2) • pauli i

/-- Pattern commands. The source dispatches on the first entry of a plain
list, so a command whose tag is none of `N`, `E`, `M`, `X`, `Z` is
representable; `unknown` stands for any such command. -/
inductive Cmd where
  | N : ℕ → Cmd
  | E : ℕ → ℕ → Cmd
  | M : ℕ → Plane → ℝ → List ℕ → List ℕ → Cmd
  | X : ℕ → List ℕ → Cmd
  | Z : ℕ → List ℕ → Cmd
  | unknown : String → Cmd

/-- The external `graphix.Pattern` data consumed by the simulator. -/
structure Pattern where
  input_nodes : List ℕ
  output_nodes : List ℕ
  seq : List Cmd
  results : ℕ → Option ℕ

/-- The simulator's internal statevector: `qi.Statevector([])` at
construction time (no data at all), or a `2^n`-dimensional state. -/
inductive SVec where
  | empty : SVec
  | state : (n : ℕ) → QVec n → SVec

/-- Number of complex amplitudes held by the internal statevector. -/
def SVec.dim : SVec → ℕ
  | SVec.empty => 0
  | SVec.state n _ => 2 ^ n

/-- Number of live qubits (`qubit_dim` in the source). -/
def SVec.qubits : SVec → ℕ
  | SVec.empty => 0
  | SVec.state n _ => n

/-- Squared norm of the internal statevector. -/
noncomputable def SVec.trace : SVec → ℝ
  | SVec.empty => 0
  | SVec.state _ v => svTrace v

/-- The mutable state of `PatternSimulator`: statevector, node-index
mapping, and the result store shared with the pattern. -/
structure SimState where
  sv : SVec
  nodeIndex : List ℕ
  results : ℕ → Option ℕ

/-- Recording `self.results[node] = result` in the result store. -/
def recordResult (node : ℕ) (result : Bool) (res : ℕ → Option ℕ) :
    ℕ → Option ℕ :=
  fun j => if j = node then some (cond result 1 0) else res j

/-- Raw (un-reduced) sum `np.sum([results[j] for j in domain])`; a missing
key raises, hence `none`. -/
def sumResults (res : ℕ → Option ℕ) : List ℕ → Option ℕ
  | [] => some 0
  | j :: rest =>
      (res j).bind fun r => (sumResults res rest).map fun s => r + s

/-- Embedding of `self.node_index.index(node)`: position of the first
occurrence, raising (`none`) when the node is not live. -/
def lookupLoc (node : ℕ) (l : List ℕ) : Option ℕ :=
  if node ∈ l then some (l.indexOf node) else none

/-- Embedding of `initialize_statevector`: the uniform superposition over
`n = len(pattern.input_nodes)` qubits, normalized, with `node_index`
extended by `range(n)`. -/
noncomputable def initializeStatevector (p : Pattern) : SimState :=
  { sv := SVec.state p.input_nodes.length (normalizeVec fun _ => 1)
    nodeIndex := List.range p.input_nodes.length
    results := p.results }

/-- Embedding of `add_nodes`: if the statevector is still the empty
`Statevector([])`, replace it by the scalar state `Statevector([1])`; then
tensor on the normalized uniform superposition over `len(nodes)` fresh
qubits and append the node identifiers to `node_index`. -/
noncomputable def addNodes (nodes : List ℕ) (st : SimState) : SimState :=
  match st.sv with
  | SVec.empty =>
      { st with
        sv := SVec.state (0 + nodes.length)
          (tensorProd (fun _ => (1 : ℂ)) (normalizeVec fun _ => 1))
        nodeIndex := st.nodeIndex ++ nodes }
  | SVec.state n v =>
      { st with
        sv := SVec.state (n + nodes.length)
          (tensorProd v (normalizeVec fun _ => 1))
        nodeIndex := st.nodeIndex ++ nodes }

/-- Embedding of `entangle_nodes`: resolve both identifiers to axis
positions and apply `Ops.cz` to `[control, target]`. -/
noncomputable def entangle (a b : ℕ) (st : SimState) : Option SimState :=
  (lookupLoc a st.nodeIndex).bind fun target =>
    (lookupLoc b st.nodeIndex).bind fun control =>
      match st.sv with
      | SVec.empty => none
      | SVec.state n v =>
          if h : control < n ∧ target < n then
            some { st with
              sv := SVec.state n (applyTwo opsCZ ⟨control, h.1⟩ ⟨target, h.2⟩ v) }
          else none

/-- Embedding of `measure`: record the sampled outcome, extract the raw
signal sums, build the projector at the adjusted angle with local-Clifford
index `0`, apply it at the measured node's axis, renormalize, discard that
axis by partial trace, turn the reduced density matrix back into a
statevector, and drop the node from `node_index`. -/
noncomputable def measure (tbl : CTable) (result : Bool) (node : ℕ)
    (plane : Plane) (angle : ℝ) (sdom tdom : List ℕ) (st : SimState) :
    Option SimState :=
  (sumResults (recordResult node result st.results) sdom).bind fun s =>
    (sumResults (recordResult node result st.results) tdom).bind fun t =>
      (lookupLoc node st.nodeIndex).bind fun loc =>
        match st.sv with
        | SVec.empty => none
        | SVec.state n v =>
            match n, v with
            | 0, _ => none
            | m + 1, v =>
                if h : loc < m + 1 then
                  (toStatevector (reducedDM ⟨loc, h⟩ (normalizeVec
                      (applyOne (measOp tbl
                          (angle * Real.pi * (-1 : ℝ) ^ s + Real.pi * t)
                          0 plane result) ⟨loc, h⟩ v)))).bind fun w =>
                    some { sv := SVec.state m w
                           nodeIndex := st.nodeIndex.erase node
                           results := recordResult node result st.results }
                else none

/-- Correction axes of the `Correct` commands. -/
inductive Axis where
  | X : Axis
  | Z : Axis
deriving DecidableEq

/-- Embedding of `correct_byproduct`: when the domain's recorded outcomes
sum to odd parity, apply `Ops.x` or `Ops.z` at the node's axis; otherwise
leave everything untouched. -/
noncomputable def correctByproduct (ax : Axis) (node : ℕ) (domain : List ℕ)
    (st : SimState) : Option SimState :=
  (sumResults st.results domain).bind fun p =>
    if p % 2 = 1 then
      (lookupLoc node st.nodeIndex).bind fun loc =>
        match st.sv with
        | SVec.empty => none
        | SVec.state n v =>
            if h : loc < n then
              some { st with
                sv := SVec.state n (applyOne
                  (match ax with | Axis.X => pauliX | Axis.Z => pauliZ)
                  ⟨loc, h⟩ v) }
            else none
    else some st

/-- Failure modes of a run: the explicit `ValueError` on an unrecognized
command tag, or an exception propagated out of a delegated operation. -/
inductive RunError where
  | invalidCommands : RunError
  | opFailed : RunError
deriving DecidableEq

/-- The interpreter loop of `run` on a command list: `outs k` is the bit
returned by the `k`-th call of the per-measurement random outcome source. -/
noncomputable def runFrom (tbl : CTable) (outs : ℕ → Bool) :
    List Cmd → SimState → ℕ → Except RunError (SimState × ℕ)
  | [], st, k => Except.ok (st, k)
  | Cmd.N i :: rest, st, k => runFrom tbl outs rest (addNodes [i] st) k
  | Cmd.E a b :: rest, st, k =>
      match entangle a b st with
      | some st1 => runFrom tbl outs rest st1 k
      | none => Except.error RunError.opFailed
  | Cmd.M node pl ang sd td :: rest, st, k =>
      match measure tbl (outs k) node pl ang sd td st with
      | some st1 => runFrom tbl outs rest st1 (k + 1)
      | none => Except.error RunError.opFailed
  | Cmd.X node dom :: rest, st, k =>
      match correctByproduct Axis.X node dom st with
      | some st1 => runFrom tbl outs rest st1 k
      | none => Except.error RunError.opFailed
  | Cmd.Z node dom :: rest, st, k =>
      match correctByproduct Axis.Z node dom st with
      | some st1 => runFrom tbl outs rest st1 k
      | none => Except.error RunError.opFailed
  | Cmd.unknown _ :: _, _, _ => Except.error RunError.invalidCommands

/-- Embedding of `run`: initialize from the pattern, then stream its
command sequence. -/
noncomputable def run (tbl : CTable) (outs : ℕ → Bool) (p : Pattern) :
    Except RunError (SimState × ℕ) :=
  runFrom tbl outs p.seq (initializeStatevector p) 0

/-- One full execution of the command list in which the only
non-deterministic ingredient, the sampled measurement outcome, is exposed
as the list of bits consumed in order; everything else follows the
functional embeddings above. -/
inductive RunSeq (tbl : CTable) :
    SimState → List Cmd → List Bool → SimState → Prop where
  | nil (st : SimState) : RunSeq tbl st [] [] st
  | stepN {st st' : SimState} {i : ℕ} {rest : List Cmd} {outs : List Bool}
      (hrest : RunSeq tbl (addNodes [i] st) rest outs st') :
      RunSeq tbl st (Cmd.N i :: rest) outs st'
  | stepE {st st1 st' : SimState} {a b : ℕ} {rest : List Cmd}
      {outs : List Bool} (hstep : entangle a b st = some st1)
      (hrest : RunSeq tbl st1 rest outs st') :
      RunSeq tbl st (Cmd.E a b :: rest) outs st'
  | stepM {st st1 st' : SimState} {node : ℕ} {pl : Plane} {ang : ℝ}
      {sd td : List ℕ} {rest : List Cmd} {outs : List Bool} (out : Bool)
      (hstep : measure tbl out node pl ang sd td st = some st1)
      (hrest : RunSeq tbl st1 rest outs st') :
      RunSeq tbl st (Cmd.M node pl ang sd td :: rest) (out :: outs) st'
  | stepX {st st1 st' : SimState} {node : ℕ} {dom : List ℕ}
      {rest : List Cmd} {outs : List Bool}
      (hstep : correctByproduct Axis.X node dom st = some st1)
      (hrest : RunSeq tbl st1 rest outs st') :
      RunSeq tbl st (Cmd.X node dom :: rest) outs st'
  | stepZ {st st1 st' : SimState} {node : ℕ} {dom : List ℕ}
      {rest : List Cmd} {outs : List Bool}
      (hstep : correctByproduct Axis.Z node dom st = some st1)
      (hrest : RunSeq tbl st1 rest outs st') :
      RunSeq tbl st (Cmd.Z node dom :: rest) outs st'

/-- The container routine `measure_and_collapse(node, op)` as the
specification describes it: resolve the axis, apply the projection
operator there, renormalize, discard exactly that axis by partial trace,
replace the state by the extracted statevector, and remove the node from
the mapping. -/
noncomputable def measureAndCollapse (op : Matrix Bool Bool ℂ) (node : ℕ)
    (st : SimState) : Option SimState :=
  (lookupLoc node st.nodeIndex).bind fun loc =>
    match st.sv with
    | SVec.empty => none
    | SVec.state n v =>
        match n, v with
        | 0, _ => none
        | m + 1, v =>
            if h : loc < m + 1 then
              (toStatevector (reducedDM ⟨loc, h⟩ (normalizeVec
                  (applyOne op ⟨loc, h⟩ v)))).bind fun w =>
                some { sv := SVec.state m w
                       nodeIndex := st.nodeIndex.erase node
                       results := st.results }
            else none

/-! Basic facts about the algebra primitives. -/

theorem svTrace_nonneg {n : ℕ} (v : QVec n) : 0 ≤ svTrace v :=
  Finset.sum_nonneg fun _ _ => Complex.normSq_nonneg _

theorem card_bitvec (n : ℕ) : Fintype.card (Fin n → Bool) = 2 ^ n := by
  simp [Fintype.card_fun]

theorem svTrace_const (n : ℕ) (c : ℂ) :
    svTrace (fun _ => c : QVec n) = 2 ^ n * Complex.normSq c := by
  unfold svTrace
  rw [Finset.sum_const, Finset.card_univ, card_bitvec, nsmul_eq_mul]
  push_cast
  ring

theorem svTrace_normalizeVec {n : ℕ} (v : QVec n) (h : svTrace v ≠ 0) :
    svTrace (normalizeVec v) = 1 := by
  have h0 : 0 ≤ svTrace v := svTrace_nonneg v
  have hs : Real.sqrt (svTrace v) * Real.sqrt (svTrace v) = svTrace v :=
    Real.mul_self_sqrt h0
  have step : ∀ b : Fin n → Bool,
      Complex.normSq (v b / ((Real.sqrt (svTrace v) : ℝ) : ℂ)) =
        Complex.normSq (v b) / svTrace v := by
    intro b
    rw [map_div₀, Complex.normSq_ofReal, hs]
  unfold svTrace normalizeVec
  have fold : (∑ b : Fin n → Bool, Complex.normSq (v b)) = svTrace v := rfl
  rw [Finset.sum_congr rfl fun b _ => step b, ← Finset.sum_div, fold]
  exact div_self h

theorem normalizeVec_const_one (n : ℕ) :
    normalizeVec (fun _ => (1 : ℂ) : QVec n) =
      fun _ => (((Real.sqrt ((2 : ℝ) ^ n))⁻¹ : ℝ) : ℂ) := by
  funext b
  unfold normalizeVec
  rw [svTrace_const]
  simp

theorem toStatevector_eq_some {n : ℕ} {ρ : DMat n} {w : QVec n}
    (h : toStatevector ρ = some w) : svTrace w = 1 ∧ outer w = ρ := by
  unfold toStatevector at h
  split at h
  case isTrue hex =>
    obtain rfl : hex.choose = w := Option.some.inj h
    exact hex.choose_spec
  case isFalse => exact absurd h (by simp)

theorem toStatevector_isSome {n : ℕ} {ρ : DMat n} (w : QVec n)
    (h1 : svTrace w = 1) (h2 : outer w = ρ) :
    ∃ u : QVec n, toStatevector ρ = some u := by
  unfold toStatevector
  rw [dif_pos ⟨w, h1, h2⟩]
  exact ⟨_, rfl⟩

/-! Claims about the measurement-operator builder `meas_op`. -/

/-- The projector exactly as the specification phrases it:
`½·I + ½·Σ_i (-1)^(outcome ⊕ parity_i) · vec[permutation_i] · Pauli_i`,
with `(permutation_i, parity_i)` drawn from the 24-entry Clifford table. -/
noncomputable def specProjector (tbl : CTable) (angle : ℝ) (vop : Fin 24)
    (plane : Plane) (outcome : Bool) : Matrix Bool Bool ℂ :=
  (1 / 2 : ℂ) • (1 : Matrix Bool Bool ℂ) +
    (1 / 2 : ℂ) • ∑ i : Fin 3,
      ((-1 : ℂ) ^ (cond (Bool.xor outcome (tbl vop i).2) 1 0) *
        ((measVec plane angle (tbl vop i).1 : ℝ) : ℂ)) • pauli i

theorem signAux (c p : Bool) (x : ℂ) :
    (-1 : ℂ) ^ (cond c 1 0 + cond p 1 0) * x / 2 =
      (1 / 2 : ℂ) * ((-1 : ℂ) ^ (cond (Bool.xor c p) 1 0) * x) := by
  cases c <;> cases p <;> simp <;> ring

/-- C2: for every angle, local-Clifford index, plane and outcome, `meas_op`
returns `½·I + ½·Σ_i (-1)^(outcome ⊕ parity_i) · vec[permutation_i] · Pauli_i`,
where `vec` is `(cos θ, sin θ, 0)` for `XY`, `(0, cos θ, sin θ)` for `YZ` and
`(sin θ, 0, sin θ)` for `ZX`, and the permutation and parity come from the
Clifford table. -/
theorem claim_C2_meas_op_formula (tbl : CTable) (angle : ℝ) (vop : Fin 24)
    (plane : Plane) (outcome : Bool) :
    measOp tbl angle vop plane outcome =
      specProjector tbl angle vop plane outcome := by
  unfold measOp specProjector
  rw [Finset.smul_sum]
  congr 1
  refine Finset.sum_congr rfl fun i _ => ?_
  rw [smul_smul]
  congr 1
  exact signAux outcome (tbl vop i).2 _

theorem signCancel (p : Bool) (x : ℂ) :
    (-1 : ℂ) ^ (cond false 1 0 + cond p 1 0) * x / 2 +
      (-1 : ℂ) ^ (cond true 1 0 + cond p 1 0) * x / 2 = 0 := by
  cases p <;> simp <;> ring

/-- C10: for every angle, local-Clifford index and plane, the operators for
the two opposite outcomes sum to the identity: the outcome-dependent terms
cancel pairwise. -/
theorem claim_C10_meas_op_outcomes_sum_to_identity (tbl : CTable) (angle : ℝ)
    (vop : Fin 24) (plane : Plane) :
    measOp tbl angle vop plane false + measOp tbl angle vop plane true =
      (1 : Matrix Bool Bool ℂ) := by
  unfold measOp
  rw [add_add_add_comm, ← add_smul, ← Finset.sum_add_distrib]
  have hzero : (∑ i : Fin 3,
      (((-1 : ℂ) ^ (cond false 1 0 + cond (tbl vop i).2 1 0) *
          ((measVec plane angle (tbl vop i).1 : ℝ) : ℂ) / 2) • pauli i +
        ((-1 : ℂ) ^ (cond true 1 0 + cond (tbl vop i).2 1 0) *
          ((measVec plane angle (tbl vop i).1 : ℝ) : ℂ) / 2) • pauli i)) =
      0 := by
    refine Finset.sum_eq_zero fun i _ => ?_
    rw [← add_smul, signCancel, zero_smul]
  rw [hzero, add_zero]
  norm_num

/-! Claims about the container operations. -/

/-- C6: for every `Correct` command whose domain's recorded outcomes sum to
even parity, `correct_byproduct` leaves the simulator state (statevector
and node-index mapping alike) unchanged: no operator is applied. -/
theorem claim_C6_correct_byproduct_even_parity_noop (ax : Axis) (node : ℕ)
    (domain : List ℕ) (st : SimState) (p : ℕ)
    (hp : sumResults st.results domain = some p) (heven : p % 2 = 0) :
    correctByproduct ax node domain st = some st := by
  unfold correctByproduct
  rw [hp]
  have hodd : ¬p % 2 = 1 := by omega
  simp [hodd]

theorem claim_C6_witness :
    correctByproduct Axis.X 0 [] ⟨SVec.empty, [], fun _ => none⟩ =
      some ⟨SVec.empty, [], fun _ => none⟩ :=
  claim_C6_correct_byproduct_even_parity_noop Axis.X 0 []
    ⟨SVec.empty, [], fun _ => none⟩ 0 rfl rfl

/-- C4 counterexample: for the pattern whose single input node carries the
identifier `5`, `initialize_statevector` sets the node-index mapping to
`[0]`, not to the pattern's input node identifiers `[5]`. -/
theorem claim_C4_counterexample :
    (initializeStatevector ⟨[5], [5], [], fun _ => none⟩).nodeIndex ≠
      (⟨[5], [5], [], fun _ => none⟩ : Pattern).input_nodes := by
  simp [initializeStatevector]
  decide

/-- C4 (amended): `initialize_statevector` sets the state to the normalized
uniform equal superposition over `n` qubits (`n` the number of input
nodes): all `2^n` amplitudes equal `(√(2^n))⁻¹` and the squared norm is 1;
the node-index mapping is set to the identifiers `0..n-1`, which coincide
with the pattern's input node identifiers exactly when those are `0..n-1`
in order. -/
theorem claim_C4_initialize_statevector (p : Pattern) :
    (initializeStatevector p).nodeIndex = List.range p.input_nodes.length ∧
    (initializeStatevector p).sv = SVec.state p.input_nodes.length
      (fun _ => (((Real.sqrt ((2 : ℝ) ^ p.input_nodes.length))⁻¹ : ℝ) : ℂ)) ∧
    (initializeStatevector p).sv.trace = 1 ∧
    (initializeStatevector p).sv.dim = 2 ^ p.input_nodes.length := by
  refine ⟨rfl, ?_, ?_, rfl⟩
  · show SVec.state _ (normalizeVec fun _ => 1) = _
    rw [normalizeVec_const_one]
  · show svTrace (normalizeVec fun _ => 1) = 1
    refine svTrace_normalizeVec _ ?_
    rw [svTrace_const, Complex.normSq_one, mul_one]
    positivity

/-- C7: `add_nodes` appends the new identifiers to the node-index mapping
and composes the current state with the normalized uniform superposition
over the `m` new qubits by tensor product, the existing axes preceding the
new axes; on the empty vacuum state the result is exactly the `m`-qubit
equal superposition, and the composed fresh factor has squared norm 1. -/
theorem claim_C7_add_nodes (nodes : List ℕ) (st : SimState)
    (hne : nodes ≠ []) (hfresh : ∀ x ∈ nodes, x ∉ st.nodeIndex) :
    (addNodes nodes st).nodeIndex = st.nodeIndex ++ nodes ∧
    (∀ (n : ℕ) (v : QVec n), st.sv = SVec.state n v →
      (addNodes nodes st).sv = SVec.state (n + nodes.length)
        (fun b => v (fun i => b (Fin.castAdd nodes.length i)) *
          (((Real.sqrt ((2 : ℝ) ^ nodes.length))⁻¹ : ℝ) : ℂ))) ∧
    (st.sv = SVec.empty →
      (addNodes nodes st).sv = SVec.state (0 + nodes.length)
        (fun _ => (((Real.sqrt ((2 : ℝ) ^ nodes.length))⁻¹ : ℝ) : ℂ))) ∧
    svTrace (normalizeVec (fun _ => (1 : ℂ) : QVec nodes.length)) = 1 := by
  obtain ⟨sv, ni, res⟩ := st
  refine ⟨?_, ?_, ?_, ?_⟩
  · cases sv <;> rfl
  · rintro n v rfl
    show SVec.state (n + nodes.length)
        (tensorProd v (normalizeVec fun _ => 1)) = _
    rw [normalizeVec_const_one]
    rfl
  · rintro rfl
    show SVec.state (0 + nodes.length)
        (tensorProd (fun _ => (1 : ℂ)) (normalizeVec fun _ => 1)) = _
    rw [normalizeVec_const_one]
    exact congrArg (SVec.state (0 + nodes.length))
      (funext fun b => one_mul _)
  · refine svTrace_normalizeVec _ ?_
    rw [svTrace_const, Complex.normSq_one, mul_one]
    positivity

theorem claim_C7_witness :
    (addNodes [7] ⟨SVec.empty, [], fun _ => none⟩).nodeIndex = [7] ∧
    (addNodes [7] ⟨SVec.empty, [], fun _ => none⟩).sv =
      SVec.state (0 + 1)
        (fun _ => (((Real.sqrt ((2 : ℝ) ^ (1 : ℕ)))⁻¹ : ℝ) : ℂ)) := by
  have h := claim_C7_add_nodes [7] ⟨SVec.empty, [], fun _ => none⟩
    (by simp) (by simp)
  exact ⟨h.1, h.2.2.1 rfl⟩

/-! The interpreter loop: abort on an unrecognized command. -/

theorem runFrom_append_unknown (tbl : CTable) (outs : ℕ → Bool)
    (pre : List Cmd) (t : String) (post : List Cmd) :
    ∀ (st : SimState) (k : ℕ) (st1 : SimState) (k1 : ℕ),
      runFrom tbl outs pre st k = Except.ok (st1, k1) →
      runFrom tbl outs (pre ++ Cmd.unknown t :: post) st k =
        Except.error RunError.invalidCommands := by
  induction pre with
  | nil => intro st k st1 k1 _; rfl
  | cons c rest ih =>
    intro st k st1 k1 h
    cases c with
    | N i =>
      rw [List.cons_append]
      exact ih _ _ _ _ h
    | E a b =>
      rw [List.cons_append]
      show (match entangle a b st with
        | some st2 => runFrom tbl outs (rest ++ Cmd.unknown t :: post) st2 k
        | none => Except.error RunError.opFailed) = _
      rw [show runFrom tbl outs (Cmd.E a b :: rest) st k =
          (match entangle a b st with
            | some st2 => runFrom tbl outs rest st2 k
            | none => Except.error RunError.opFailed) from rfl] at h
      cases hstep : entangle a b st with
      | none => rw [hstep] at h; simp at h
      | some st2 => rw [hstep] at h; exact ih _ _ _ _ h
    | M node pl ang sd td =>
      rw [List.cons_append]
      show (match measure tbl (outs k) node pl ang sd td st with
        | some st2 =>
            runFrom tbl outs (rest ++ Cmd.unknown t :: post) st2 (k + 1)
        | none => Except.error RunError.opFailed) = _
      rw [show runFrom tbl outs (Cmd.M node pl ang sd td :: rest) st k =
          (match measure tbl (outs k) node pl ang sd td st with
            | some st2 => runFrom tbl outs rest st2 (k + 1)
            | none => Except.error RunError.opFailed) from rfl] at h
      cases hstep : measure tbl (outs k) node pl ang sd td st with
      | none => rw [hstep] at h; simp at h
      | some st2 => rw [hstep] at h; exact ih _ _ _ _ h
    | X node dom =>
      rw [List.cons_append]
      show (match correctByproduct Axis.X node dom st with
        | some st2 => runFrom tbl outs (rest ++ Cmd.unknown t :: post) st2 k
        | none => Except.error RunError.opFailed) = _
      rw [show runFrom tbl outs (Cmd.X node dom :: rest) st k =
          (match correctByproduct Axis.X node dom st with
            | some st2 => runFrom tbl outs rest st2 k
            | none => Except.error RunError.opFailed) from rfl] at h
      cases hstep : correctByproduct Axis.X node dom st with
      | none => rw [hstep] at h; simp at h
      | some st2 => rw [hstep] at h; exact ih _ _ _ _ h
    | Z node dom =>
      rw [List.cons_append]
      show (match correctByproduct Axis.Z node dom st with
        | some st2 => runFrom tbl outs (rest ++ Cmd.unknown t :: post) st2 k
        | none => Except.error RunError.opFailed) = _
      rw [show runFrom tbl outs (Cmd.Z node dom :: rest) st k =
          (match correctByproduct Axis.Z node dom st with
            | some st2 => runFrom tbl outs rest st2 k
            | none => Except.error RunError.opFailed) from rfl] at h
      cases hstep : correctByproduct Axis.Z node dom st with
      | none => rw [hstep] at h; simp at h
      | some st2 => rw [hstep] at h; exact ih _ _ _ _ h
    | unknown s =>
      rw [show runFrom tbl outs (Cmd.unknown s :: rest) st k =
          Except.error RunError.invalidCommands from rfl] at h
      simp at h

/-- C8: a command sequence containing a command with an unrecognized tag
makes `run` raise the `invalid commands` error at that command and abort:
whenever the commands before it execute successfully, the whole run returns
the error and no final state is produced. -/
theorem claim_C8_unknown_command_aborts (tbl : CTable) (outs : ℕ → Bool)
    (p : Pattern) (pre post : List Cmd) (t : String) (st1 : SimState)
    (k1 : ℕ) (hseq : p.seq = pre ++ Cmd.unknown t :: post)
    (hpre : runFrom tbl outs pre (initializeStatevector p) 0 =
      Except.ok (st1, k1)) :
    run tbl outs p = Except.error RunError.invalidCommands := by
  unfold run
  rw [hseq]
  exact runFrom_append_unknown tbl outs pre t post _ 0 st1 k1 hpre

theorem claim_C8_witness :
    run (fun _ _ => (0, false)) (fun _ => false)
      ⟨[0], [0], [Cmd.unknown (String.mk [])], fun _ => none⟩ =
      Except.error RunError.invalidCommands :=
  claim_C8_unknown_command_aborts (fun _ _ => (0, false)) (fun _ => false)
    ⟨[0], [0], [Cmd.unknown (String.mk [])], fun _ => none⟩ [] []
    (String.mk [])
    (initializeStatevector ⟨[0], [0], [Cmd.unknown (String.mk [])],
      fun _ => none⟩) 0 rfl rfl

/-! The measurement path of the interpreter. -/

/-- C3: for every `Measure` command, `measure` records the sampled outcome,
computes the signals as the raw (un-reduced) sums of the recorded outcomes
over `s_domain` and `t_domain`, builds the projector at the adjusted angle
`angle·π·(-1)^s + π·t` with local-Clifford index `0`, and hands it to the
collapse routine on the measured node. -/
theorem claim_C3_measure_signals_and_collapse (tbl : CTable) (result : Bool)
    (node : ℕ) (plane : Plane) (angle : ℝ) (sdom tdom : List ℕ)
    (st : SimState) (s t : ℕ)
    (hs : sumResults (recordResult node result st.results) sdom = some s)
    (ht : sumResults (recordResult node result st.results) tdom = some t) :
    measure tbl result node plane angle sdom tdom st =
      measureAndCollapse
        (measOp tbl (angle * Real.pi * (-1 : ℝ) ^ s + Real.pi * t) 0 plane
          result)
        node
        { st with results := recordResult node result st.results } := by
  obtain ⟨sv, ni, res⟩ := st
  unfold measure measureAndCollapse
  rw [hs, ht]
  cases sv with
  | empty => rfl
  | state n v =>
      cases n with
      | zero => rfl
      | succ m => rfl

theorem claim_C3_witness :
    measure (fun _ i => (i, false)) false 1 Plane.XY 0 [0] []
      ⟨SVec.empty, [], fun j => if j = 0 then some 1 else none⟩ =
      measureAndCollapse
        (measOp (fun _ i => (i, false))
          ((0 : ℝ) * Real.pi * (-1 : ℝ) ^ (1 : ℕ) + Real.pi * (0 : ℕ))
          0 Plane.XY false)
        1
        { sv := SVec.empty
          nodeIndex := []
          results := recordResult 1 false
            fun j => if j = 0 then some 1 else none } :=
  claim_C3_measure_signals_and_collapse (fun _ i => (i, false)) false 1
    Plane.XY 0 [0] []
    ⟨SVec.empty, [], fun j => if j = 0 then some 1 else none⟩ 1 0 rfl rfl

/-- Successful measurement, destructured: the statevector had `m + 1`
qubits, the new one has `m` qubits and unit norm, the measured node was
removed from the mapping by `List.remove`, and the outcome was recorded. -/
theorem measure_eq_some_parts {tbl : CTable} {result : Bool} {node : ℕ}
    {plane : Plane} {angle : ℝ} {sdom tdom : List ℕ} {st st' : SimState}
    (hsucc : measure tbl result node plane angle sdom tdom st = some st') :
    st'.nodeIndex = st.nodeIndex.erase node ∧
    st'.results = recordResult node result st.results ∧
    ∃ (m : ℕ) (w : QVec m), st.sv.qubits = m + 1 ∧
      st'.sv = SVec.state m w ∧ svTrace w = 1 := by
  unfold measure at hsucc
  obtain ⟨s, hs, hsucc⟩ := Option.bind_eq_some.mp hsucc
  obtain ⟨t, ht, hsucc⟩ := Option.bind_eq_some.mp hsucc
  obtain ⟨loc, hloc, hsucc⟩ := Option.bind_eq_some.mp hsucc
  obtain ⟨sv, ni, res⟩ := st
  cases sv with
  | empty => exact absurd hsucc (by simp)
  | state n v =>
      cases n with
      | zero => exact absurd hsucc (by simp)
      | succ m =>
          rw [show (match SVec.state (m + 1) v with
              | SVec.empty => (none : Option SimState)
              | SVec.state n v =>
                match n, v with
                | 0, _ => none
                | m + 1, v =>
                    if h : loc < m + 1 then
                      (toStatevector (reducedDM ⟨loc, h⟩ (normalizeVec
                          (applyOne (measOp tbl
                              (angle * Real.pi * (-1 : ℝ) ^ s +
                                Real.pi * t) 0 plane result)
                            ⟨loc, h⟩ v)))).bind fun w =>
                        some { sv := SVec.state m w
                               nodeIndex := ni.erase node
                               results := recordResult node result res }
                    else none) =
              (if h : loc < m + 1 then
                (toStatevector (reducedDM ⟨loc, h⟩ (normalizeVec
                    (applyOne (measOp tbl
                        (angle * Real.pi * (-1 : ℝ) ^ s + Real.pi * t)
                        0 plane result) ⟨loc, h⟩ v)))).bind fun w =>
                  some { sv := SVec.state m w
                         nodeIndex := ni.erase node
                         results := recordResult node result res }
              else none) from rfl] at hsucc
          by_cases h : loc < m + 1
          · rw [dif_pos h] at hsucc
            obtain ⟨w, hw, hsucc⟩ := Option.bind_eq_some.mp hsucc
            obtain rfl : _ = st' := Option.some.inj hsucc
            exact ⟨rfl, rfl, m, w, rfl, rfl,
              (toStatevector_eq_some hw).1⟩
          · rw [dif_neg h] at hsucc
            exact absurd hsucc (by simp)

/-! Determinism of a run once the sampled outcomes are fixed. -/

theorem runSeq_functional (tbl : CTable) {st : SimState} {cmds : List Cmd}
    {outs : List Bool} {s1 : SimState}
    (h1 : RunSeq tbl st cmds outs s1) :
    ∀ {s2 : SimState}, RunSeq tbl st cmds outs s2 → s1 = s2 := by
  induction h1 with
  | nil st =>
      intro s2 h2
      cases h2
      rfl
  | stepN hrest ih =>
      intro s2 h2
      cases h2 with
      | stepN hrest2 => exact ih hrest2
  | stepE hstep hrest ih =>
      intro s2 h2
      cases h2 with
      | stepE hstep2 hrest2 =>
          obtain rfl := Option.some.inj (hstep.symm.trans hstep2)
          exact ih hrest2
  | stepM out hstep hrest ih =>
      intro s2 h2
      cases h2 with
      | stepM out2 hstep2 hrest2 =>
          obtain rfl := Option.some.inj (hstep.symm.trans hstep2)
          exact ih hrest2
  | stepX hstep hrest ih =>
      intro s2 h2
      cases h2 with
      | stepX hstep2 hrest2 =>
          obtain rfl := Option.some.inj (hstep.symm.trans hstep2)
          exact ih hrest2
  | stepZ hstep hrest ih =>
      intro s2 h2
      cases h2 with
      | stepZ hstep2 hrest2 =>
          obtain rfl := Option.some.inj (hstep.symm.trans hstep2)
          exact ih hrest2

/-- C9: with the per-measurement random outcome source fixed to the same
sequence of bits, two executions of `run()` on the same pattern reach the
same final state and the same result store: the sampled outcome is the only
source of non-determinism. -/
theorem claim_C9_run_deterministic_given_outcomes (tbl : CTable)
    (p : Pattern) (outs : List Bool) (s1 s2 : SimState)
    (h1 : RunSeq tbl (initializeStatevector p) p.seq outs s1)
    (h2 : RunSeq tbl (initializeStatevector p) p.seq outs s2) :
    s1 = s2 ∧ s1.results = s2.results := by
  obtain rfl := runSeq_functional tbl h1 h2
  exact ⟨rfl, rfl⟩

theorem claim_C9_witness :
    addNodes [1] (initializeStatevector ⟨[0], [0], [Cmd.N 1], fun _ => none⟩)
      = addNodes [1]
        (initializeStatevector ⟨[0], [0], [Cmd.N 1], fun _ => none⟩) :=
  (claim_C9_run_deterministic_given_outcomes (fun _ i => (i, false))
    ⟨[0], [0], [Cmd.N 1], fun _ => none⟩ [] _ _
    (RunSeq.stepN (RunSeq.nil _)) (RunSeq.stepN (RunSeq.nil _))).1

/-! Concrete evaluation lemmas used to exhibit successful measurements. -/

/-- The identity local Clifford: each Pauli axis maps to itself with
positive sign. -/
def tblId : CTable := fun _ i => (i, false)

theorem measOp_tblId_XY_zero :
    measOp tblId 0 0 Plane.XY false = Matrix.of fun _ _ => (1 / 2 : ℂ) := by
  unfold measOp tblId
  ext i j
  simp only [Fin.sum_univ_three]
  simp [measVec, pauli, pauliX, pauliY, pauliZ, Matrix.one_apply]
  cases i <;> cases j <;> norm_num

theorem svTrace_const_real (n : ℕ) (r : ℝ) :
    svTrace (fun _ => ((r : ℝ) : ℂ) : QVec n) = 2 ^ n * (r * r) := by
  rw [svTrace_const, Complex.normSq_ofReal]

theorem normalizeVec_trace_one {n : ℕ} (v : QVec n) (h : svTrace v = 1) :
    normalizeVec v = v := by
  funext b
  unfold normalizeVec
  rw [h, Real.sqrt_one]
  simp

theorem applyOne_half_const {n : ℕ} (loc : Fin n) (c : ℂ) :
    applyOne (Matrix.of fun _ _ => (1 / 2 : ℂ)) loc (fun _ => c) =
      fun _ => c := by
  funext b
  unfold applyOne
  rw [Fintype.sum_bool]
  show (1 / 2 : ℂ) * c + (1 / 2 : ℂ) * c = c
  ring

theorem reducedDM_const {m : ℕ} (loc : Fin (m + 1)) (r : ℝ) :
    reducedDM loc (fun _ => ((r : ℝ) : ℂ)) =
      fun _ _ => ((2 * (r * r) : ℝ) : ℂ) := by
  funext b bp
  unfold reducedDM
  rw [Fintype.sum_bool]
  show (r : ℂ) * (starRingEnd ℂ) (r : ℂ) +
      (r : ℂ) * (starRingEnd ℂ) (r : ℂ) = _
  rw [Complex.conj_ofReal]
  push_cast
  ring

theorem outer_const {n : ℕ} (r : ℝ) :
    outer (fun _ => ((r : ℝ) : ℂ) : QVec n) =
      fun _ _ => ((r * r : ℝ) : ℂ) := by
  funext b bp
  show (r : ℂ) * (starRingEnd ℂ) (r : ℂ) = _
  rw [Complex.conj_ofReal]
  push_cast
  ring

/-- A fully concrete successful measurement: on a uniform real state of
`m + 1` qubits with unit norm, measuring any live node in the `XY` plane at
angle `0` with empty domains and outcome `0` succeeds, yielding an
`m`-qubit state, the mapping with the node erased, and the recorded
outcome. -/
theorem measure_tblId_XY0_const {m : ℕ} (node : ℕ) (ni : List ℕ)
    (res : ℕ → Option ℕ) (r u : ℝ)
    (hr : (2 : ℝ) ^ (m + 1) * (r * r) = 1)
    (hu : (2 : ℝ) ^ m * (u * u) = 1)
    (huo : (u * u : ℝ) = 2 * (r * r))
    (hnode : node ∈ ni) (hloc : ni.indexOf node < m + 1) :
    ∃ w : QVec m,
      measure tblId false node Plane.XY 0 [] []
        ⟨SVec.state (m + 1) (fun _ => ((r : ℝ) : ℂ)), ni, res⟩ =
      some ⟨SVec.state m w, ni.erase node, recordResult node false res⟩ := by
  have htr1 : svTrace (fun _ => ((r : ℝ) : ℂ) : QVec (m + 1)) = 1 := by
    rw [svTrace_const_real]
    exact_mod_cast hr
  have htru : svTrace (fun _ => ((u : ℝ) : ℂ) : QVec m) = 1 := by
    rw [svTrace_const_real]
    exact_mod_cast hu
  have hout : outer (fun _ => ((u : ℝ) : ℂ) : QVec m) =
      fun _ _ => ((2 * (r * r) : ℝ) : ℂ) := by
    rw [outer_const, huo]
  obtain ⟨u0, hu0⟩ := toStatevector_isSome _ htru hout
  have hang : (0 : ℝ) * Real.pi * (-1 : ℝ) ^ (0 : ℕ) +
      Real.pi * ((0 : ℕ) : ℝ) = 0 := by
    push_cast
    ring
  have hlook : lookupLoc node ni = some (ni.indexOf node) := by
    unfold lookupLoc
    rw [if_pos hnode]
  refine ⟨u0, ?_⟩
  unfold measure
  simp only [sumResults, Option.some_bind]
  rw [hlook]
  simp only [Option.some_bind]
  rw [dif_pos hloc, hang, measOp_tblId_XY_zero, applyOne_half_const,
    normalizeVec_trace_one _ htr1, reducedDM_const, hu0]
  rfl

/-- C1: measuring a live node of a `k = m + 1`-qubit state replaces the
state by one of dimension `2^(k-1)` that is normalized, obtained by
discarding exactly the measured axis while retaining all other axes (the
new statevector realizes the partial trace over just that axis of the
projected, renormalized state), and removes exactly the measured node's
identifier from the node-index mapping. -/
theorem claim_C1_measure_collapses_one_axis (tbl : CTable) (result : Bool)
    (node : ℕ) (plane : Plane) (angle : ℝ) (sdom tdom : List ℕ)
    (st st' : SimState) (m : ℕ) (v : QVec (m + 1)) (s t : ℕ)
    (hsv : st.sv = SVec.state (m + 1) v)
    (hlen : st.nodeIndex.length = m + 1)
    (hnodup : st.nodeIndex.Nodup)
    (hnode : node ∈ st.nodeIndex)
    (hloc : st.nodeIndex.indexOf node < m + 1)
    (hs : sumResults (recordResult node result st.results) sdom = some s)
    (ht : sumResults (recordResult node result st.results) tdom = some t)
    (hsucc : measure tbl result node plane angle sdom tdom st = some st') :
    (∃ w : QVec m, st'.sv = SVec.state m w ∧ svTrace w = 1 ∧
      outer w = reducedDM ⟨st.nodeIndex.indexOf node, hloc⟩
        (normalizeVec (applyOne
          (measOp tbl (angle * Real.pi * (-1 : ℝ) ^ s + Real.pi * t)
            0 plane result)
          ⟨st.nodeIndex.indexOf node, hloc⟩ v))) ∧
    st'.sv.dim = 2 ^ m ∧
    st'.sv.trace = 1 ∧
    st'.nodeIndex = st.nodeIndex.erase node ∧
    st'.nodeIndex.length = m ∧
    node ∉ st'.nodeIndex ∧
    (∀ x : ℕ, x ≠ node → (x ∈ st'.nodeIndex ↔ x ∈ st.nodeIndex)) := by
  obtain ⟨sv, ni, res⟩ := st
  dsimp only at hsv hlen hnodup hnode hloc hs ht hsucc ⊢
  subst hsv
  unfold measure at hsucc
  have hlook : lookupLoc node ni = some (ni.indexOf node) := by
    unfold lookupLoc
    rw [if_pos hnode]
  rw [hs, ht, hlook] at hsucc
  simp only [Option.some_bind] at hsucc
  rw [dif_pos hloc] at hsucc
  obtain ⟨w, hw, hsucc⟩ := Option.bind_eq_some.mp hsucc
  obtain rfl := Option.some.inj hsucc
  obtain ⟨hwt, hwo⟩ := toStatevector_eq_some hw
  refine ⟨⟨w, rfl, hwt, hwo⟩, rfl, hwt, rfl, ?_, ?_, ?_⟩
  · show (ni.erase node).length = m
    rw [List.length_erase_of_mem hnode, hlen]
    omega
  · exact hnodup.not_mem_erase
  · intro x hx
    exact List.mem_erase_of_ne hx

theorem claim_C1_witness :
    ((measure tblId false 0 Plane.XY 0 [] []
        ⟨SVec.state 2 (fun _ => (((1 / 2 : ℝ) : ℝ) : ℂ)), [0, 1],
          fun _ => none⟩).map
      fun s1 => (s1.sv.dim, s1.sv.trace, s1.nodeIndex)) =
      some (2, 1, [1]) := by
  have hinv2 : ((Real.sqrt 2)⁻¹ * (Real.sqrt 2)⁻¹ : ℝ) = 1 / 2 := by
    rw [← mul_inv, Real.mul_self_sqrt (by norm_num : (0 : ℝ) ≤ 2)]
    norm_num
  obtain ⟨w, hsucc⟩ := measure_tblId_XY0_const (m := 1) 0 [0, 1]
    (fun _ => none) (1 / 2) (Real.sqrt 2)⁻¹
    (by norm_num) (by rw [hinv2]; norm_num) (by rw [hinv2]; norm_num)
    (by decide) (by decide)
  have h := claim_C1_measure_collapses_one_axis tblId false 0 Plane.XY 0
    [] [] ⟨SVec.state 2 (fun _ => (((1 / 2 : ℝ) : ℝ) : ℂ)), [0, 1],
      fun _ => none⟩ _ 1 (fun _ => (((1 / 2 : ℝ) : ℝ) : ℂ)) 0 0
    rfl rfl (by decide) (by decide) (by decide) rfl rfl hsucc
  rw [show measure tblId false 0 Plane.XY 0 [] []
      (⟨SVec.state 2 (fun _ => (((1 / 2 : ℝ) : ℝ) : ℂ)), [0, 1],
        fun _ => none⟩ : SimState) =
      some ⟨SVec.state 1 w, ([0, 1] : List ℕ).erase 0,
        recordResult 0 false fun _ => none⟩ from hsucc]
  rw [Option.map_some']
  refine congrArg some ?_
  show ((2 : ℕ), SVec.trace (SVec.state 1 w), ([0, 1] : List ℕ).erase 0) =
    (2, 1, [1])
  have e2 : SVec.trace (SVec.state 1 w) = 1 := h.2.2.1
  rw [e2]
  rfl

/-- C5: starting from any state whose mapping does not yet contain `b`,
adding nodes `a, b, c` in that order and then measuring `b` leaves exactly
the other nodes in the mapping, with `a` still preceding `c`. -/
theorem claim_C5_measure_preserves_relative_order (tbl : CTable)
    (result : Bool) (plane : Plane) (angle : ℝ) (sdom tdom : List ℕ)
    (st st' : SimState) (a b c : ℕ) (hab : a ≠ b) (hbc : b ≠ c)
    (hac : a ≠ c) (hbL : b ∉ st.nodeIndex)
    (hsucc : measure tbl result b plane angle sdom tdom
      (addNodes [a, b, c] st) = some st') :
    st'.nodeIndex = st.nodeIndex ++ [a, c] := by
  have hidx := (measure_eq_some_parts hsucc).1
  have haddidx : (addNodes [a, b, c] st).nodeIndex =
      st.nodeIndex ++ [a, b, c] := by
    obtain ⟨sv, ni, res⟩ := st
    cases sv <;> rfl
  rw [haddidx] at hidx
  have hbl2 : ([a, b, c] : List ℕ).erase b = [a, c] := by
    rw [List.erase_cons_tail (by simpa using hab), List.erase_cons_head]
  rw [hidx, List.erase_append_right _ hbL, hbl2]

theorem claim_C5_witness :
    ((measure tblId false 1 Plane.XY 0 [] []
        (addNodes [0, 1, 2] ⟨SVec.empty, [], fun _ => none⟩)).map
      fun s1 => s1.nodeIndex) = some [0, 2] := by
  have h8 : ((Real.sqrt ((2 : ℝ) ^ (3 : ℕ)))⁻¹ *
      (Real.sqrt ((2 : ℝ) ^ (3 : ℕ)))⁻¹ : ℝ) = 1 / 8 := by
    rw [← mul_inv, Real.mul_self_sqrt (by positivity)]
    norm_num
  obtain ⟨w, heq⟩ := measure_tblId_XY0_const (m := 2) 1 [0, 1, 2]
    (fun _ => none) (Real.sqrt ((2 : ℝ) ^ (3 : ℕ)))⁻¹ (1 / 2)
    (by rw [h8]; norm_num) (by norm_num) (by rw [h8]; norm_num)
    (by decide) (by decide)
  have hadd : addNodes [0, 1, 2] (⟨SVec.empty, [], fun _ => none⟩ :
      SimState) = ⟨SVec.state (0 + 3)
        (fun _ => (((Real.sqrt ((2 : ℝ) ^ (3 : ℕ)))⁻¹ : ℝ) : ℂ)),
      [0, 1, 2], fun _ => none⟩ := by
    show (⟨SVec.state (0 + 3)
        (tensorProd (fun _ => (1 : ℂ)) (normalizeVec fun _ => 1)),
      [] ++ [0, 1, 2], fun _ => none⟩ : SimState) = _
    refine congrArg
      (fun svv => (⟨svv, [0, 1, 2], fun _ => none⟩ : SimState)) ?_
    rw [normalizeVec_const_one]
    exact congrArg _ (funext fun b => one_mul _)
  have hsucc : measure tblId false 1 Plane.XY 0 [] []
      (addNodes [0, 1, 2] ⟨SVec.empty, [], fun _ => none⟩) =
      some ⟨SVec.state 2 w, ([0, 1, 2] : List ℕ).erase 1,
        recordResult 1 false fun _ => none⟩ := by
    rw [hadd]
    exact heq
  have h := claim_C5_measure_preserves_relative_order tblId false
    Plane.XY 0 [] [] ⟨SVec.empty, [], fun _ => none⟩ _ 0 1 2
    (by decide) (by decide) (by decide) (by simp) hsucc
  rw [hsucc, Option.map_some']
  exact congrArg some h

end GraphixSim
